import Mathlib

/-!
A shallow embedding of the `index-provider` engine link-system core
(`engine/linksystem.go`): the main link-system read path
(`mkLinkSystem`'s `StorageReadOpener`), the chunk generator
(`generateChunks`), the cache link system, and the advertisement
classifier (`isAdvertisement`), together with proofs about them.

Modelling conventions:
* multihashes, byte strings and context ids are opaque; they are
  modelled as naturals / lists of naturals;
* the entry-chunk node built by `schema.NewLinkedListOfMhs` is modelled
  by the inductive `Chunk`; content addressing is injective, so the CID
  of an encoded chunk is identified with the chunk itself
  (`CId.chunk c`);
* the external collaborators (dag-json decoder, entry-chunk encoder,
  multihash callback, CID-to-contextID map, persistent datastore) are
  fields of the `Engine` record, as arbitrary functions;
* the `lrustore.LRUStore` cache is not part of the extracted sources;
  it is modelled from the spec (see `LRUStore`).
-/

namespace IndexProvider

/-- A multihash, modelled as an opaque natural number. -/
abbrev Multihash := Nat

/-- A raw byte string, modelled as a list of naturals. -/
abbrev Bytes := List Nat

/-- A context identifier: an opaque byte string supplied by the
advertisement owner. -/
abbrev ContextID := List Nat

/-- An entry chunk: an ordered batch of multihashes plus an optional
link to the previously written chunk (`first` carries no previous
link).  This mirrors the node built by
`schema.NewLinkedListOfMhs(e.cachelsys, mhs, chunkLnk)` in
`generateChunks`. -/
inductive Chunk : Type where
  | first (entries : List Multihash)
  | cons (entries : List Multihash) (prev : Chunk)
deriving DecidableEq, Repr

/-- Build a chunk from a batch and an optional previous link, mirroring
the `(mhs, chunkLnk)` arguments of `schema.NewLinkedListOfMhs`. -/
def mkChunk (entries : List Multihash) : Option Chunk → Chunk
  | none => .first entries
  | some p => .cons entries p

/-- The optional previous link carried by a chunk. -/
def Chunk.prevLink : Chunk → Option Chunk
  | .first _ => none
  | .cons _ p => some p

/-- The number of multihash entries held by a chunk. -/
def Chunk.size : Chunk → Nat
  | .first es => es.length
  | .cons es _ => es.length

/-- The length of a chunk's previous-link chain (used to show that the
chunks written by one generation run are pairwise distinct). -/
def Chunk.depth : Chunk → Nat
  | .first _ => 1
  | .cons _ p => p.depth + 1

/-- A content identifier: either the content CID of an encoded entry
chunk (content addressing makes the digest injective on the chunk
content), or any other identifier. -/
inductive CId : Type where
  | chunk (c : Chunk)
  | other (n : Nat)
deriving DecidableEq, Repr

/-- Modelled from the spec: `lrustore.LRUStore`, the bounded chunk
cache, is code of this repository that is not under `src/` (only its
caller `generateChunks` is).  Per spec section 4.4 it is a bounded LRU
key/value store with `Get`, `Put`, `Len`, `Cap` and `Resize(newCap)`,
where resizing below `Len` evicts least-recently-used entries and
resizing larger never evicts.  `entries` is kept most-recent-first. -/
structure LRUStore : Type where
  entries : List (CId × Bytes)
  cap : Nat
deriving DecidableEq, Repr

/-- The number of entries currently stored (`Len()`). -/
def LRUStore.len (s : LRUStore) : Nat := s.entries.length

/-- `Get`: the value stored under a key, or `none` (`ErrNotFound`). -/
def LRUStore.lookup (s : LRUStore) (k : CId) : Option Bytes :=
  (s.entries.find? (fun p => p.1 == k)).map (fun p => p.2)

/-- `Put`: store a value under a key; an existing entry for the key is
replaced and moved to the most-recent position. -/
def LRUStore.put (s : LRUStore) (k : CId) (v : Bytes) : LRUStore :=
  ⟨(k, v) :: s.entries.filter (fun p => !(p.1 == k)), s.cap⟩

/-- `Resize`: change the capacity; shrinking below `Len` evicts
least-recently-used entries (the tail of the most-recent-first list). -/
def LRUStore.resize (s : LRUStore) (newCap : Nat) : LRUStore :=
  ⟨s.entries.take newCap, newCap⟩

/-- A generically decoded structured node, as produced by
`decodeIPLDNode` (`basicnode.Prototype.Any` fed from `dagjson.Decode`). -/
inductive Node : Type where
  | null
  | bool (b : Bool)
  | int (n : Int)
  | str (s : String)
  | bytes (bs : Bytes)
  | list (xs : List Node)
  | map (fields : List (String × Node))

/-- `Node.LookupByString`: on a map node, the value stored under the
given top-level field name (including an explicit `null` value, which
is a present, non-nil node); `none` on a missing field or a non-map
node (the Go call returns a nil node plus an error in those cases). -/
def Node.lookupByString : Node → String → Option Node
  | .map fields, key => (fields.find? (fun f => f.1 == key)).map (fun f => f.2)
  | _, _ => none

/-- `isAdvertisement` (linksystem.go line 265): look up the top-level
field "Signature" and report whether the returned node is non-nil. -/
def isAdvertisement (n : Node) : Bool :=
  (n.lookupByString "Signature").isSome

/-- The result of `e.ds.Get` on the persistent datastore: stored bytes,
`datastore.ErrNotFound`, or any other error (opaque code). -/
inductive DsRes : Type where
  | ok (b : Bytes)
  | notFound
  | fail (e : Nat)

/-- Errors surfaced by the read path and the chunk generator. -/
inductive Err : Type where
  | notFound
  | noCallback
  | decodeFailed
  | dsFail (e : Nat)
  | keyMapFail (e : Nat)
  | cbFail (e : Nat)
  | iterErr (e : Nat)
deriving DecidableEq, Repr

/-- A `provider.MultihashIterator`: a single-use forward producer that
yields the multihashes of `mhs` in order and then either signals
end-of-sequence (`terminal = none`, Go `io.EOF`) or fails with an
opaque error code (`terminal = some e`). -/
structure MhIterator : Type where
  mhs : List Multihash
  terminal : Option Nat
deriving DecidableEq, Repr

/-- The mutable state threaded through `generateChunks`: the batch
buffer `mhs`, the running previous link `chunkLnk`, the cache, the
`resized` flag and the observability counters.  `writes` records the
chunks committed through the cache link system in write order, and
`capTrace` records the capacity after each `Resize` call; both are
ghost observations of calls the Go code makes. -/
structure GenState : Type where
  buf : List Multihash
  chunkLnk : Option Chunk
  cache : LRUStore
  resized : Bool
  writes : List Chunk
  capTrace : List Nat
  chunkCount : Nat
  totalMhCount : Nat

/-- The cache-affecting portion of the generator state. -/
structure CacheTr : Type where
  cache : LRUStore
  capTrace : List Nat
  resized : Bool
deriving DecidableEq, Repr

/-- Project the cache-affecting portion of a generator state. -/
def GenState.tr (st : GenState) : CacheTr := ⟨st.cache, st.capTrace, st.resized⟩

/-- The capacity check performed before each chunk write
(linksystem.go lines 160-163 and 176-179): when the cache is a
`*lrustore.LRUStore` (`lsOK`) and `Len == Cap`, double the capacity and
record that a resize occurred. -/
def condResize (lsOK : Bool) (t : CacheTr) : CacheTr :=
  if lsOK && (t.cache.len == t.cache.cap) then
    ⟨t.cache.resize (t.cache.cap * 2), t.capTrace ++ [t.cache.cap * 2], true⟩
  else t

/-- One chunk commit through the cache link system: the capacity check
followed by a `Put` of the encoded chunk under its content CID. -/
def applyWrite (lsOK : Bool) (enc : Chunk → Bytes) (t : CacheTr) (c : Chunk) : CacheTr :=
  let t1 := condResize lsOK t
  ⟨t1.cache.put (CId.chunk c) (enc c), t1.capTrace, t1.resized⟩

/-- The cache effect of a sequence of chunk commits. -/
def applyWrites (lsOK : Bool) (enc : Chunk → Bytes) (t : CacheTr) (cs : List Chunk) : CacheTr :=
  cs.foldl (applyWrite lsOK enc) t

/-- Write the current batch as one chunk: capacity check, encode
`{batch, previous link}`, commit through the cache link system, set
the previous link to the new CID, clear the batch. -/
def writeStep (lsOK : Bool) (enc : Chunk → Bytes) (st : GenState) : GenState :=
  let c := mkChunk st.buf st.chunkLnk
  let t := applyWrite lsOK enc st.tr c
  { st with
      buf := [], chunkLnk := some c, writes := st.writes ++ [c],
      chunkCount := st.chunkCount + 1,
      cache := t.cache, capTrace := t.capTrace, resized := t.resized }

/-- The main loop of `generateChunks` (lines 147-172): pull multihashes
one at a time, append to the batch, and commit a chunk whenever the
batch reaches `chunkSize`. -/
def genLoop (k : Nat) (lsOK : Bool) (enc : Chunk → Bytes) :
    List Multihash → GenState → GenState
  | [], st => st
  | m :: rest, st =>
    let st1 := { st with buf := st.buf ++ [m], totalMhCount := st.totalMhCount + 1 }
    let st2 := if k ≤ st1.buf.length then writeStep lsOK enc st1 else st1
    genLoop k lsOK enc rest st2

/-- The epilogue of `generateChunks` (lines 174-193): commit the
leftover batch if non-empty, then, if any resize occurred, shrink the
cache capacity down to its current length. -/
def finishGen (lsOK : Bool) (enc : Chunk → Bytes) (st : GenState) : GenState :=
  let st1 := if st.buf.isEmpty then st else writeStep lsOK enc st
  if st1.resized then
    { st1 with
        cache := st1.cache.resize st1.cache.len,
        capTrace := st1.capTrace ++ [st1.cache.len] }
  else st1

/-- The observable outcome of a `generateChunks` run: the returned
head link or error, the final cache, and the ghost traces. -/
structure GenOutcome : Type where
  result : Except Err (Option Chunk)
  cache : LRUStore
  writes : List Chunk
  capTrace : List Nat
  resized : Bool
  chunkCount : Nat
  totalMhCount : Nat

/-- Package a generator state and a result as an outcome. -/
def GenState.toOutcome (st : GenState) (r : Except Err (Option Chunk)) : GenOutcome :=
  ⟨r, st.cache, st.writes, st.capTrace, st.resized, st.chunkCount, st.totalMhCount⟩

/-- `generateChunks` (linksystem.go lines 138-197): iterate the
multihashes, bundling them into chunks of `chunkSize` committed through
the cache link system; an iterator error (other than `io.EOF`) aborts
immediately; on end-of-sequence the leftover batch is committed and,
if the capacity was ever doubled, the cache is shrunk to its length.
Returns the last written chunk link (the list head). -/
def generateChunks (k : Nat) (lsOK : Bool) (enc : Chunk → Bytes)
    (cache : LRUStore) (iter : MhIterator) : GenOutcome :=
  let st0 : GenState := ⟨[], none, cache, false, [], [], 0, 0⟩
  let st := genLoop k lsOK enc iter.mhs st0
  match iter.terminal with
  | some er => st.toOutcome (.error (.iterErr er))
  | none =>
    let st1 := finishGen lsOK enc st
    st1.toOutcome (.ok st1.chunkLnk)

/-- The engine, restricted to the fields the link-system read path
uses: the persistent datastore `ds`, the generic decoder, the optional
registered multihash callback `cb`, the CID-to-contextID map
(`getCidKeyMap`), the chunk cache plus the result of the
`*lrustore.LRUStore` type assertion, the configured chunk size, and
the opaque entry-chunk encoder. -/
structure Engine : Type where
  ds : CId → DsRes
  decode : Bytes → Option Node
  cb : Option (ContextID → Except Nat MhIterator)
  keyMap : CId → Except Nat ContextID
  cache : LRUStore
  cacheIsLRU : Bool
  linkedChunkSize : Nat
  enc : Chunk → Bytes

/-- `getCacheEntry` (lines 271-280): read the cache, with
`ErrNotFound` converted to a nil value. -/
def getCacheEntry (cache : LRUStore) (id : CId) : Option Bytes :=
  cache.lookup id

/-- The re-read at the end of the read path (lines 110-124): fetch the
entry from the cache; if no value was populated, fail with
`datastore.ErrNotFound`. -/
def finishRead (cache : LRUStore) (id : CId) : Except Err Bytes :=
  let val := (getCacheEntry cache id).getD []
  if val.length = 0 then .error .notFound else .ok val

/-- The ingestion-data portion of the read path (lines 53-124): require
a registered callback, check the cache, on a miss resolve the context
id and run the chunk generator, then re-read the cache. -/
def readIngest (e : Engine) (id : CId) : Except Err Bytes :=
  match e.cb with
  | none => .error .noCallback
  | some cb =>
    match getCacheEntry e.cache id with
    | some _ => finishRead e.cache id
    | none =>
      match e.keyMap id with
      | .error er => .error (.keyMapFail er)
      | .ok ctxId =>
        match cb ctxId with
        | .error er => .error (.cbFail er)
        | .ok iter =>
          let out := generateChunks e.linkedChunkSize e.cacheIsLRU e.enc e.cache iter
          match out.result with
          | .error er => .error er
          | .ok _ => finishRead out.cache id

/-- The main link system's `StorageReadOpener` (lines 23-125): look the
id up in the persistent datastore; a non-`ErrNotFound` error
propagates; if bytes were retrieved, decode them and return them when
they are an advertisement; otherwise (including a non-advertisement
object, which is only logged) fall through to the ingestion path. -/
def read (e : Engine) (id : CId) : Except Err Bytes :=
  match e.ds id with
  | .fail er => .error (.dsFail er)
  | res =>
    let val : Bytes := match res with | .ok b => b | _ => []
    if val.length ≠ 0 then
      match e.decode val with
      | none => .error .decodeFailed
      | some n =>
        if isAdvertisement n then .ok val
        else readIngest e id
    else readIngest e id

/-- Follows the spec's words, for comparison with the code's
`isAdvertisement`: "decode bytes as a generic node; return true iff a
top-level field named Signature is present and non-null". -/
def specIsAdvertisement (n : Node) : Bool :=
  match n.lookupByString "Signature" with
  | none => false
  | some .null => false
  | some _ => true

/-- A concrete entry-chunk encoder used to instantiate theorems. -/
def encW : Chunk → Bytes := fun _ => [1]

/-- An engine whose datastore holds a non-advertisement object under
every key and which has no registered callback. -/
def engNonAd : Engine where
  ds := fun _ => .ok [7]
  decode := fun _ => some (Node.map [("Entries", Node.null)])
  cb := none
  keyMap := fun _ => .error 0
  cache := ⟨[], 2⟩
  cacheIsLRU := true
  linkedChunkSize := 2
  enc := encW

/-- An engine with an empty datastore, a registered callback producing
an empty multihash sequence, and an empty cache. -/
def engMiss : Engine where
  ds := fun _ => .notFound
  decode := fun _ => none
  cb := some (fun _ => .ok ⟨[], none⟩)
  keyMap := fun _ => .ok []
  cache := ⟨[], 2⟩
  cacheIsLRU := true
  linkedChunkSize := 2
  enc := encW

/-- An engine with an empty datastore and no registered callback. -/
def engNoCb : Engine where
  ds := fun _ => .notFound
  decode := fun _ => none
  cb := none
  keyMap := fun _ => .error 0
  cache := ⟨[], 2⟩
  cacheIsLRU := true
  linkedChunkSize := 2
  enc := encW

/-- An engine whose datastore returns a zero-length value under every
key and which has no registered callback. -/
def engEmptyVal : Engine where
  ds := fun _ => .ok []
  decode := fun _ => none
  cb := none
  keyMap := fun _ => .error 0
  cache := ⟨[], 0⟩
  cacheIsLRU := false
  linkedChunkSize := 1
  enc := encW

/-- An engine whose entry-chunk encoder produces zero-length bytes, so
that a freshly generated chunk re-reads as an empty value. -/
def engEmptyEnc : Engine where
  ds := fun _ => .notFound
  decode := fun _ => none
  cb := some (fun _ => .ok ⟨[5], none⟩)
  keyMap := fun _ => .ok []
  cache := ⟨[], 2⟩
  cacheIsLRU := true
  linkedChunkSize := 1
  enc := fun _ => []

/-! ### Basic lemmas about chunks and the store -/

theorem mkChunk_prevLink (es : List Multihash) (p : Option Chunk) :
    (mkChunk es p).prevLink = p := by
  cases p <;> rfl

theorem mkChunk_size (es : List Multihash) (p : Option Chunk) :
    (mkChunk es p).size = es.length := by
  cases p <;> rfl

theorem prevLink_depth (c d : Chunk) (h : c.prevLink = some d) :
    c.depth = d.depth + 1 := by
  cases c with
  | first es => simp [Chunk.prevLink] at h
  | cons es p =>
    simp only [Chunk.prevLink, Option.some.injEq] at h
    subst h
    rfl

theorem LRUStore.lookup_congr (s1 s2 : LRUStore) (k : CId)
    (h : s1.entries = s2.entries) : s1.lookup k = s2.lookup k := by
  simp [lookup, h]

theorem LRUStore.lookup_put_self (s : LRUStore) (k : CId) (v : Bytes) :
    (s.put k v).lookup k = some v := by
  simp [lookup, put, List.find?]

theorem find?_key_filter (l : List (CId × Bytes)) (k k2 : CId) (h : k2 ≠ k) :
    (l.filter (fun p => !(p.1 == k))).find? (fun p => p.1 == k2)
      = l.find? (fun p => p.1 == k2) := by
  induction l with
  | nil => rfl
  | cons p rest ih =>
    by_cases hk : p.1 = k
    · have hp2 : (p.1 == k2) = false := by
        apply beq_eq_false_iff_ne.mpr
        rw [hk]
        exact fun hh => h hh.symm
      have hpk : (p.1 == k) = true := beq_iff_eq.mpr hk
      simp [List.filter_cons, hpk, List.find?, hp2, ih]
    · have hpk : (p.1 == k) = false := beq_eq_false_iff_ne.mpr hk
      by_cases h2 : p.1 = k2
      · simp [List.filter_cons, hpk, List.find?, beq_iff_eq.mpr h2]
      · simp [List.filter_cons, hpk, List.find?, beq_eq_false_iff_ne.mpr h2, ih]

theorem LRUStore.lookup_put_ne (s : LRUStore) (k k2 : CId) (v : Bytes)
    (h : k2 ≠ k) : (s.put k v).lookup k2 = s.lookup k2 := by
  have hk : (k == k2) = false :=
    beq_eq_false_iff_ne.mpr (fun hh => h hh.symm)
  simp [lookup, put, List.find?, hk, find?_key_filter s.entries k k2 h]

theorem LRUStore.len_put_of_lookup_none (s : LRUStore) (k : CId) (v : Bytes)
    (h : s.lookup k = none) : (s.put k v).len = s.len + 1 := by
  have hfind : s.entries.find? (fun p => p.1 == k) = none := by
    cases hf : s.entries.find? (fun p => p.1 == k) with
    | none => rfl
    | some p => simp [lookup, hf] at h
  have hfil : s.entries.filter (fun p => !(p.1 == k)) = s.entries := by
    apply List.filter_eq_self.mpr
    intro p hp
    have := List.find?_eq_none.mp hfind p hp
    simpa using this
  simp [put, len, hfil]

theorem LRUStore.put_cap (s : LRUStore) (k : CId) (v : Bytes) :
    (s.put k v).cap = s.cap := rfl

theorem LRUStore.resize_cap (s : LRUStore) (n : Nat) :
    (s.resize n).cap = n := rfl

theorem LRUStore.resize_entries_of_le (s : LRUStore) (n : Nat)
    (h : s.len ≤ n) : (s.resize n).entries = s.entries := by
  simp only [resize]
  exact List.take_of_length_le h

theorem LRUStore.resize_len_cap (s : LRUStore) :
    (s.resize s.len).cap = (s.resize s.len).len := by
  simp [resize, len, List.length_take]

/-! ### Lemmas about the capacity check and chunk commits -/

theorem condResize_false (t : CacheTr) : condResize false t = t := rfl

theorem condResize_of_len_ne (lsOK : Bool) (t : CacheTr)
    (h : t.cache.len ≠ t.cache.cap) : condResize lsOK t = t := by
  have hb : (t.cache.len == t.cache.cap) = false := beq_eq_false_iff_ne.mpr h
  simp [condResize, hb]

theorem condResize_of_len_eq (t : CacheTr) (h : t.cache.len = t.cache.cap) :
    condResize true t =
      ⟨⟨t.cache.entries, t.cache.cap * 2⟩, t.capTrace ++ [t.cache.cap * 2], true⟩ := by
  have hb : (t.cache.len == t.cache.cap) = true := beq_iff_eq.mpr h
  have hle : t.cache.len ≤ t.cache.cap * 2 := by omega
  simp only [condResize, hb, Bool.and_true, LRUStore.resize, if_pos]
  rw [List.take_of_length_le hle]

theorem condResize_entries (lsOK : Bool) (t : CacheTr) :
    (condResize lsOK t).cache.entries = t.cache.entries := by
  by_cases h : (lsOK && (t.cache.len == t.cache.cap)) = true
  · have hlen : t.cache.len = t.cache.cap := by
      have h2 := h
      simp only [Bool.and_eq_true, beq_iff_eq] at h2
      exact h2.2
    have hle : t.cache.len ≤ t.cache.cap * 2 := by omega
    simp only [condResize, h, if_true, LRUStore.resize]
    exact List.take_of_length_le hle
  · simp [condResize, h]

theorem condResize_lookup (lsOK : Bool) (t : CacheTr) (k : CId) :
    (condResize lsOK t).cache.lookup k = t.cache.lookup k :=
  LRUStore.lookup_congr _ _ k (condResize_entries lsOK t)

theorem applyWrite_lookup_self (lsOK : Bool) (enc : Chunk → Bytes)
    (t : CacheTr) (c : Chunk) :
    (applyWrite lsOK enc t c).cache.lookup (CId.chunk c) = some (enc c) :=
  LRUStore.lookup_put_self _ _ _

theorem applyWrite_lookup_ne (lsOK : Bool) (enc : Chunk → Bytes)
    (t : CacheTr) (c : Chunk) (k : CId) (h : k ≠ CId.chunk c) :
    (applyWrite lsOK enc t c).cache.lookup k = t.cache.lookup k := by
  simp only [applyWrite]
  rw [LRUStore.lookup_put_ne _ _ _ _ h]
  exact condResize_lookup lsOK t k

theorem applyWrites_nil (lsOK : Bool) (enc : Chunk → Bytes) (t : CacheTr) :
    applyWrites lsOK enc t [] = t := rfl

theorem applyWrites_cons (lsOK : Bool) (enc : Chunk → Bytes) (t : CacheTr)
    (c : Chunk) (cs : List Chunk) :
    applyWrites lsOK enc t (c :: cs) = applyWrites lsOK enc (applyWrite lsOK enc t c) cs := rfl

theorem applyWrites_append (lsOK : Bool) (enc : Chunk → Bytes) (t : CacheTr)
    (cs1 cs2 : List Chunk) :
    applyWrites lsOK enc t (cs1 ++ cs2)
      = applyWrites lsOK enc (applyWrites lsOK enc t cs1) cs2 := by
  simp [applyWrites, List.foldl_append]

theorem applyWrites_lookup_mem (lsOK : Bool) (enc : Chunk → Bytes) :
    ∀ (cs : List Chunk) (t : CacheTr) (c : Chunk),
      (c ∈ cs ∨ t.cache.lookup (CId.chunk c) = some (enc c)) →
      (applyWrites lsOK enc t cs).cache.lookup (CId.chunk c) = some (enc c) := by
  intro cs
  induction cs with
  | nil =>
    intro t c h
    rcases h with h | h
    · simp at h
    · simpa [applyWrites_nil] using h
  | cons c1 rest ih =>
    intro t c h
    rw [applyWrites_cons]
    apply ih
    by_cases hc : c = c1
    · subst hc
      exact Or.inr (applyWrite_lookup_self lsOK enc t c)
    · rcases h with h | h
      · rcases List.mem_cons.mp h with h1 | h1
        · exact absurd h1 hc
        · exact Or.inl h1
      · refine Or.inr ?_
        rw [applyWrite_lookup_ne lsOK enc t c1 (CId.chunk c)
          (fun hh => hc (CId.chunk.inj hh))]
        exact h

theorem applyWrites_false_frame (enc : Chunk → Bytes) :
    ∀ (cs : List Chunk) (t : CacheTr),
      (applyWrites false enc t cs).capTrace = t.capTrace ∧
      (applyWrites false enc t cs).resized = t.resized ∧
      (applyWrites false enc t cs).cache.cap = t.cache.cap := by
  intro cs
  induction cs with
  | nil => intro t; exact ⟨rfl, rfl, rfl⟩
  | cons c rest ih =>
    intro t
    rw [applyWrites_cons]
    have h := ih (applyWrite false enc t c)
    simpa [applyWrite, condResize_false, LRUStore.put_cap] using h

/-! ### The backward-linked chain of written chunks -/

/-- The chunks `ws`, in write order, form a backward-linked list whose
first element links to `p` and each later element links to the chunk
written immediately before it. -/
def isChain : Option Chunk → List Chunk → Prop
  | _, [] => True
  | p, c :: cs => c.prevLink = p ∧ isChain (some c) cs

/-- The previous link available after writing `ws` on top of link `p`:
the last chunk of `ws`, or `p` when nothing was written. -/
def endLink (p : Option Chunk) : List Chunk → Option Chunk
  | [] => p
  | c :: cs => endLink (some c) cs

theorem endLink_append (p : Option Chunk) (ws1 ws2 : List Chunk) :
    endLink p (ws1 ++ ws2) = endLink (endLink p ws1) ws2 := by
  induction ws1 generalizing p with
  | nil => rfl
  | cons c cs ih => simp [endLink, ih]

theorem endLink_eq_getLast (p : Option Chunk) (ws : List Chunk) (h : ws ≠ []) :
    endLink p ws = ws.getLast? := by
  induction ws generalizing p with
  | nil => exact absurd rfl h
  | cons c cs ih =>
    cases cs with
    | nil => rfl
    | cons d ds =>
      rw [List.getLast?_cons_cons]
      exact ih (some c) (by simp)

theorem isChain_append (p : Option Chunk) (ws1 ws2 : List Chunk)
    (h1 : isChain p ws1) (h2 : isChain (endLink p ws1) ws2) :
    isChain p (ws1 ++ ws2) := by
  induction ws1 generalizing p with
  | nil => exact h2
  | cons c cs ih =>
    exact ⟨h1.1, ih (some c) h1.2 h2⟩

theorem isChain_get_zero (p : Option Chunk) (ws : List Chunk)
    (h : isChain p ws) (h0 : 0 < ws.length) :
    (ws.get ⟨0, h0⟩).prevLink = p := by
  cases ws with
  | nil => simp at h0
  | cons c cs => exact h.1

theorem isChain_get_succ (p : Option Chunk) (ws : List Chunk) (h : isChain p ws) :
    ∀ i (hi : i + 1 < ws.length),
      (ws.get ⟨i + 1, hi⟩).prevLink
        = some (ws.get ⟨i, Nat.lt_of_succ_lt hi⟩) := by
  induction ws generalizing p with
  | nil => intro i hi; simp at hi
  | cons c cs ih =>
    intro i hi
    cases i with
    | zero =>
      cases cs with
      | nil => simp at hi
      | cons d ds => exact h.2.1
    | succ j =>
      exact ih (some c) h.2 j (Nat.lt_of_succ_lt_succ hi)

theorem isChain_depth_lt (c : Chunk) (ws : List Chunk)
    (h : isChain (some c) ws) : ∀ d ∈ ws, c.depth < d.depth := by
  induction ws generalizing c with
  | nil => intro d hd; simp at hd
  | cons a rest ih =>
    intro d hd
    have ha : a.depth = c.depth + 1 := prevLink_depth a c h.1
    rcases List.mem_cons.mp hd with rfl | hdr
    · omega
    · have := ih a h.2 d hdr
      omega

theorem isChain_pairwise_ne (p : Option Chunk) (ws : List Chunk)
    (h : isChain p ws) : ws.Pairwise (fun a b => a ≠ b) := by
  induction ws generalizing p with
  | nil => exact List.Pairwise.nil
  | cons c cs ih =>
    refine List.Pairwise.cons ?_ (ih (some c) h.2)
    intro d hd heq
    have hlt := isChain_depth_lt c cs h.2 d hd
    rw [heq] at hlt
    omega

/-! ### The generator loop invariants -/

theorem writeStep_fields (lsOK : Bool) (enc : Chunk → Bytes) (st : GenState) :
    (writeStep lsOK enc st).buf = [] ∧
    (writeStep lsOK enc st).chunkLnk = some (mkChunk st.buf st.chunkLnk) ∧
    (writeStep lsOK enc st).writes = st.writes ++ [mkChunk st.buf st.chunkLnk] ∧
    (writeStep lsOK enc st).tr = applyWrite lsOK enc st.tr (mkChunk st.buf st.chunkLnk) :=
  ⟨rfl, rfl, rfl, rfl⟩

/-- The structural specification of the generator loop: it extends the
write list by a block `ws` of chunks that forms a backward-linked
chain starting from the incoming previous link, leaves the previous
link at the end of that chain, and applies exactly the corresponding
cache commits. -/
theorem genLoop_spec (k : Nat) (lsOK : Bool) (enc : Chunk → Bytes) :
    ∀ (l : List Multihash) (st : GenState), ∃ ws,
      (genLoop k lsOK enc l st).writes = st.writes ++ ws ∧
      (genLoop k lsOK enc l st).tr = applyWrites lsOK enc st.tr ws ∧
      isChain st.chunkLnk ws ∧
      (genLoop k lsOK enc l st).chunkLnk = endLink st.chunkLnk ws := by
  intro l
  induction l with
  | nil =>
    intro st
    exact ⟨[], by simp [genLoop, applyWrites_nil, isChain, endLink]⟩
  | cons m rest ih =>
    intro st
    by_cases hk : k ≤ st.buf.length + 1
    · set st1 : GenState :=
        { st with buf := st.buf ++ [m], totalMhCount := st.totalMhCount + 1 } with hst1
      have hcond : k ≤ st1.buf.length := by
        simp [hst1, List.length_append, hk]
      have hunf : genLoop k lsOK enc (m :: rest) st
          = genLoop k lsOK enc rest (writeStep lsOK enc st1) := by
        simp only [genLoop, hst1]
        rw [if_pos hcond]
      set c := mkChunk st1.buf st1.chunkLnk with hc
      obtain ⟨ws2, hw, htr, hch, hend⟩ := ih (writeStep lsOK enc st1)
      refine ⟨c :: ws2, ?_, ?_, ?_, ?_⟩
      · rw [hunf, hw]
        simp [writeStep, hst1]
      · rw [hunf, htr]
        have : (writeStep lsOK enc st1).tr = applyWrite lsOK enc st.tr c := by
          simp [writeStep, GenState.tr, hst1]
        rw [this, applyWrites_cons]
      · refine ⟨?_, ?_⟩
        · rw [hc, mkChunk_prevLink]
        · have : (writeStep lsOK enc st1).chunkLnk = some c := rfl
          rw [this] at hch
          exact hch
      · rw [hunf, hend]
        have : (writeStep lsOK enc st1).chunkLnk = some c := rfl
        rw [this]
        rfl
    · set st1 : GenState :=
        { st with buf := st.buf ++ [m], totalMhCount := st.totalMhCount + 1 } with hst1
      have hcond : ¬ k ≤ st1.buf.length := by
        simp only [hst1, List.length_append, List.length_cons, List.length_nil]
        omega
      have hunf : genLoop k lsOK enc (m :: rest) st = genLoop k lsOK enc rest st1 := by
        simp only [genLoop]
        rw [if_neg hcond]
      obtain ⟨ws, hw, htr, hch, hend⟩ := ih st1
      exact ⟨ws, by rw [hunf, hw], by rw [hunf, htr]; rfl, hch, by rw [hunf, hend]⟩

/-- The counting specification of the generator loop: starting with a
batch shorter than `k`, after consuming `l` the leftover batch holds
`(b + |l|) mod k` multihashes and exactly `(b + |l|) div k` new chunks
of exactly `k` entries each were written. -/
theorem genLoop_count (k : Nat) (lsOK : Bool) (enc : Chunk → Bytes) :
    ∀ (l : List Multihash) (st : GenState), st.buf.length < k →
      (genLoop k lsOK enc l st).buf.length = (st.buf.length + l.length) % k ∧
      (genLoop k lsOK enc l st).writes.map Chunk.size
        = st.writes.map Chunk.size
            ++ List.replicate ((st.buf.length + l.length) / k) k := by
  intro l
  induction l with
  | nil =>
    intro st hb
    constructor
    · simp [genLoop, Nat.mod_eq_of_lt hb]
    · simp [genLoop, Nat.div_eq_of_lt hb]
  | cons m rest ih =>
    intro st hb
    have hkpos : 0 < k := by omega
    set st1 : GenState :=
      { st with buf := st.buf ++ [m], totalMhCount := st.totalMhCount + 1 } with hst1
    have hlen1 : st1.buf.length = st.buf.length + 1 := by
      simp [hst1]
    by_cases hk : k ≤ st.buf.length + 1
    · have hfull : st.buf.length + 1 = k := by omega
      have hcond : k ≤ st1.buf.length := by omega
      have hunf : genLoop k lsOK enc (m :: rest) st
          = genLoop k lsOK enc rest (writeStep lsOK enc st1) := by
        simp only [genLoop, hst1]
        rw [if_pos hcond]
      have hbw : (writeStep lsOK enc st1).buf.length < k := by
        simp [writeStep, hkpos]
      obtain ⟨h1, h2⟩ := ih (writeStep lsOK enc st1) hbw
      have hbuf0 : (writeStep lsOK enc st1).buf.length = 0 := by
        simp [writeStep]
      have harg : st.buf.length + (rest.length + 1) = k + rest.length := by omega
      constructor
      · rw [hunf, h1, hbuf0]
        simp only [List.length_cons, harg]
        rw [Nat.zero_add, Nat.add_comm k rest.length, Nat.add_mod_right]
      · rw [hunf, h2, hbuf0]
        have hws : (writeStep lsOK enc st1).writes
            = st.writes ++ [mkChunk st1.buf st1.chunkLnk] := rfl
        rw [hws]
        simp only [List.map_append, List.map_cons, List.map_nil, List.length_cons]
        have hsz : (mkChunk st1.buf st1.chunkLnk).size = k := by
          rw [mkChunk_size, hlen1, hfull]
        rw [hsz, harg, Nat.zero_add, Nat.add_comm k rest.length,
          Nat.add_div_right _ hkpos, List.replicate_succ, List.append_assoc]
        rfl
    · have hcond : ¬ k ≤ st1.buf.length := by omega
      have hunf : genLoop k lsOK enc (m :: rest) st = genLoop k lsOK enc rest st1 := by
        simp only [genLoop]
        rw [if_neg hcond]
      have hb1 : st1.buf.length < k := by omega
      obtain ⟨h1, h2⟩ := ih st1 hb1
      have harg : st1.buf.length + rest.length = st.buf.length + (rest.length + 1) := by
        omega
      constructor
      · rw [hunf, h1, harg]
        rfl
      · rw [hunf, h2, harg]
        rfl

/-- The epilogue commits the leftover batch (if any) as one more chunk
and otherwise only performs the conditional shrink, which touches the
cache and capacity trace but not the write list or the head link. -/
theorem finishGen_spec (lsOK : Bool) (enc : Chunk → Bytes) (st : GenState) :
    ∃ ws2, (finishGen lsOK enc st).writes = st.writes ++ ws2 ∧
      isChain st.chunkLnk ws2 ∧
      (finishGen lsOK enc st).chunkLnk = endLink st.chunkLnk ws2 ∧
      (finishGen lsOK enc st).resized = (applyWrites lsOK enc st.tr ws2).resized ∧
      ((applyWrites lsOK enc st.tr ws2).resized = true →
          (finishGen lsOK enc st).cache
            = (applyWrites lsOK enc st.tr ws2).cache.resize
                (applyWrites lsOK enc st.tr ws2).cache.len ∧
          (finishGen lsOK enc st).capTrace
            = (applyWrites lsOK enc st.tr ws2).capTrace
                ++ [(applyWrites lsOK enc st.tr ws2).cache.len]) ∧
      ((applyWrites lsOK enc st.tr ws2).resized = false →
          (finishGen lsOK enc st).cache = (applyWrites lsOK enc st.tr ws2).cache ∧
          (finishGen lsOK enc st).capTrace = (applyWrites lsOK enc st.tr ws2).capTrace) ∧
      (st.buf.isEmpty = true → ws2 = []) ∧
      (st.buf.isEmpty = false → ws2 = [mkChunk st.buf st.chunkLnk]) := by
  by_cases hb : st.buf.isEmpty
  · refine ⟨[], ?_⟩
    have htr0 : applyWrites lsOK enc st.tr [] = st.tr := rfl
    rw [htr0]
    by_cases hr : st.resized
    · simp [finishGen, hb, hr, isChain, endLink, GenState.tr]
    · simp [finishGen, hb, hr, isChain, endLink, GenState.tr]
  · refine ⟨[mkChunk st.buf st.chunkLnk], ?_⟩
    have hb2 : st.buf.isEmpty = false := by simpa using hb
    have hstep : applyWrites lsOK enc st.tr [mkChunk st.buf st.chunkLnk]
        = (writeStep lsOK enc st).tr := rfl
    rw [hstep]
    have hw : (writeStep lsOK enc st).writes
        = st.writes ++ [mkChunk st.buf st.chunkLnk] := rfl
    have hl : (writeStep lsOK enc st).chunkLnk = some (mkChunk st.buf st.chunkLnk) := rfl
    by_cases hr : (writeStep lsOK enc st).resized
    · refine ⟨?_, ?_, ?_, ?_, ?_, ?_, ?_, ?_⟩ <;>
        simp [finishGen, hb2, hr, isChain, endLink, mkChunk_prevLink, GenState.tr, hw, hl]
    · refine ⟨?_, ?_, ?_, ?_, ?_, ?_, ?_, ?_⟩ <;>
        simp [finishGen, hb2, hr, isChain, endLink, mkChunk_prevLink, GenState.tr, hw, hl]

/-- The end-of-sequence specification of `generateChunks`: the written
chunks form a backward-linked chain starting from no link, the returned
head is the last chunk written, and the final cache is exactly the
result of the per-chunk commits followed by the conditional shrink. -/
theorem gen_none_spec (k : Nat) (lsOK : Bool) (enc : Chunk → Bytes)
    (cache : LRUStore) (iter : MhIterator) (ht : iter.terminal = none) :
    isChain none (generateChunks k lsOK enc cache iter).writes ∧
    (generateChunks k lsOK enc cache iter).result
      = .ok (endLink none (generateChunks k lsOK enc cache iter).writes) ∧
    (generateChunks k lsOK enc cache iter).resized
      = (applyWrites lsOK enc ⟨cache, [], false⟩
          (generateChunks k lsOK enc cache iter).writes).resized ∧
    ((applyWrites lsOK enc ⟨cache, [], false⟩
        (generateChunks k lsOK enc cache iter).writes).resized = true →
      (generateChunks k lsOK enc cache iter).cache
        = (applyWrites lsOK enc ⟨cache, [], false⟩
            (generateChunks k lsOK enc cache iter).writes).cache.resize
            (applyWrites lsOK enc ⟨cache, [], false⟩
              (generateChunks k lsOK enc cache iter).writes).cache.len ∧
      (generateChunks k lsOK enc cache iter).capTrace
        = (applyWrites lsOK enc ⟨cache, [], false⟩
            (generateChunks k lsOK enc cache iter).writes).capTrace
          ++ [(applyWrites lsOK enc ⟨cache, [], false⟩
                (generateChunks k lsOK enc cache iter).writes).cache.len]) ∧
    ((applyWrites lsOK enc ⟨cache, [], false⟩
        (generateChunks k lsOK enc cache iter).writes).resized = false →
      (generateChunks k lsOK enc cache iter).cache
        = (applyWrites lsOK enc ⟨cache, [], false⟩
            (generateChunks k lsOK enc cache iter).writes).cache ∧
      (generateChunks k lsOK enc cache iter).capTrace
        = (applyWrites lsOK enc ⟨cache, [], false⟩
            (generateChunks k lsOK enc cache iter).writes).capTrace) := by
  have hgen : generateChunks k lsOK enc cache iter
      = (finishGen lsOK enc (genLoop k lsOK enc iter.mhs
          ⟨[], none, cache, false, [], [], 0, 0⟩)).toOutcome
          (.ok (finishGen lsOK enc (genLoop k lsOK enc iter.mhs
            ⟨[], none, cache, false, [], [], 0, 0⟩)).chunkLnk) := by
    simp only [generateChunks, ht]
  obtain ⟨ws1, hw1, htr1, hch1, hend1⟩ :=
    genLoop_spec k lsOK enc iter.mhs ⟨[], none, cache, false, [], [], 0, 0⟩
  obtain ⟨ws2, hw2, hch2, hend2, hres2, hcT, hcF, _, _⟩ :=
    finishGen_spec lsOK enc (genLoop k lsOK enc iter.mhs ⟨[], none, cache, false, [], [], 0, 0⟩)
  have hwrites : (generateChunks k lsOK enc cache iter).writes = ws1 ++ ws2 := by
    rw [hgen]
    show (finishGen lsOK enc _).writes = ws1 ++ ws2
    rw [hw2, hw1]
    simp
  have happ : applyWrites lsOK enc ⟨cache, [], false⟩ (ws1 ++ ws2)
      = applyWrites lsOK enc
          (genLoop k lsOK enc iter.mhs ⟨[], none, cache, false, [], [], 0, 0⟩).tr ws2 := by
    rw [applyWrites_append]
    have h0 : (⟨cache, [], false⟩ : CacheTr)
        = (⟨[], none, cache, false, [], [], 0, 0⟩ : GenState).tr := rfl
    rw [h0, ← htr1]
  have hln : (genLoop k lsOK enc iter.mhs
      ⟨[], none, cache, false, [], [], 0, 0⟩).chunkLnk = endLink none ws1 := hend1
  refine ⟨?_, ?_, ?_, ?_, ?_⟩
  · rw [hwrites]
    exact isChain_append none ws1 ws2 hch1 (hln ▸ hch2)
  · rw [hwrites, hgen]
    show Except.ok (finishGen lsOK enc _).chunkLnk = Except.ok (endLink none (ws1 ++ ws2))
    rw [hend2, hln, endLink_append]
  · rw [hwrites, happ, hgen]
    exact hres2
  · rw [hwrites, happ, hgen]
    intro h
    exact hcT h
  · rw [hwrites, happ, hgen]
    intro h
    exact hcF h

/-- On end-of-sequence the chunk sizes, in write order, are
`mhs.length / k` full chunks of `k` entries followed by one chunk of
`mhs.length mod k` entries when the division is not exact. -/
theorem gen_none_sizes (k : Nat) (lsOK : Bool) (enc : Chunk → Bytes)
    (cache : LRUStore) (iter : MhIterator) (hk : 0 < k) (ht : iter.terminal = none) :
    (generateChunks k lsOK enc cache iter).writes.map Chunk.size
      = List.replicate (iter.mhs.length / k) k
        ++ (if iter.mhs.length % k = 0 then []
            else [iter.mhs.length % k]) := by
  have hgen : generateChunks k lsOK enc cache iter
      = (finishGen lsOK enc (genLoop k lsOK enc iter.mhs
          ⟨[], none, cache, false, [], [], 0, 0⟩)).toOutcome
          (.ok (finishGen lsOK enc (genLoop k lsOK enc iter.mhs
            ⟨[], none, cache, false, [], [], 0, 0⟩)).chunkLnk) := by
    simp only [generateChunks, ht]
  obtain ⟨hbuf, hsizes⟩ := genLoop_count k lsOK enc iter.mhs
    ⟨[], none, cache, false, [], [], 0, 0⟩ (by simpa using hk)
  obtain ⟨ws2, hw2, _, _, _, _, _, hbE, hbN⟩ :=
    finishGen_spec lsOK enc (genLoop k lsOK enc iter.mhs ⟨[], none, cache, false, [], [], 0, 0⟩)
  have hwrites : (generateChunks k lsOK enc cache iter).writes
      = (genLoop k lsOK enc iter.mhs ⟨[], none, cache, false, [], [], 0, 0⟩).writes ++ ws2 := by
    rw [hgen]
    exact hw2
  rw [hwrites, List.map_append]
  have hsizes2 : (genLoop k lsOK enc iter.mhs
      ⟨[], none, cache, false, [], [], 0, 0⟩).writes.map Chunk.size
      = List.replicate (iter.mhs.length / k) k := by
    rw [hsizes]
    simp
  rw [hsizes2]
  by_cases hm : iter.mhs.length % k = 0
  · have hb0 : (genLoop k lsOK enc iter.mhs
        ⟨[], none, cache, false, [], [], 0, 0⟩).buf.length = 0 := by
      rw [hbuf]
      simpa using hm
    have hbempty : (genLoop k lsOK enc iter.mhs
        ⟨[], none, cache, false, [], [], 0, 0⟩).buf.isEmpty = true := by
      rw [List.isEmpty_iff]
      exact List.length_eq_zero.mp hb0
    rw [hbE hbempty, if_pos hm]
    rfl
  · have hbne : (genLoop k lsOK enc iter.mhs
        ⟨[], none, cache, false, [], [], 0, 0⟩).buf.length ≠ 0 := by
      rw [hbuf]
      simpa using hm
    have hbfull : (genLoop k lsOK enc iter.mhs
        ⟨[], none, cache, false, [], [], 0, 0⟩).buf.isEmpty = false := by
      rcases hfl : (genLoop k lsOK enc iter.mhs
        ⟨[], none, cache, false, [], [], 0, 0⟩).buf.isEmpty with h | h
      · rfl
      · exact absurd (List.length_eq_zero.mpr (List.isEmpty_iff.mp hfl)) hbne
    rw [hbN hbfull, if_neg hm]
    simp only [List.map_cons, List.map_nil, mkChunk_size]
    rw [hbuf]
    simp

/-- The iterator-error specification of `generateChunks`: the error is
surfaced as the result, no flush or shrink happens, and the cache state
is exactly the per-chunk commits of the chunks written so far, which
are `mhs.length / k` full chunks. -/
theorem gen_err_spec (k : Nat) (lsOK : Bool) (enc : Chunk → Bytes)
    (cache : LRUStore) (iter : MhIterator) (er : Nat) (ht : iter.terminal = some er) :
    (generateChunks k lsOK enc cache iter).result = .error (.iterErr er) ∧
    isChain none (generateChunks k lsOK enc cache iter).writes ∧
    (generateChunks k lsOK enc cache iter).cache
      = (applyWrites lsOK enc ⟨cache, [], false⟩
          (generateChunks k lsOK enc cache iter).writes).cache ∧
    (generateChunks k lsOK enc cache iter).capTrace
      = (applyWrites lsOK enc ⟨cache, [], false⟩
          (generateChunks k lsOK enc cache iter).writes).capTrace ∧
    (generateChunks k lsOK enc cache iter).resized
      = (applyWrites lsOK enc ⟨cache, [], false⟩
          (generateChunks k lsOK enc cache iter).writes).resized ∧
    (0 < k → (generateChunks k lsOK enc cache iter).writes.map Chunk.size
        = List.replicate (iter.mhs.length / k) k) := by
  have hgen : generateChunks k lsOK enc cache iter
      = (genLoop k lsOK enc iter.mhs
          ⟨[], none, cache, false, [], [], 0, 0⟩).toOutcome (.error (.iterErr er)) := by
    simp only [generateChunks, ht]
  obtain ⟨ws1, hw1, htr1, hch1, _⟩ :=
    genLoop_spec k lsOK enc iter.mhs ⟨[], none, cache, false, [], [], 0, 0⟩
  have hwrites : (generateChunks k lsOK enc cache iter).writes = ws1 := by
    rw [hgen]
    show (genLoop k lsOK enc iter.mhs _).writes = ws1
    rw [hw1]
    rfl
  have htr : (genLoop k lsOK enc iter.mhs
      ⟨[], none, cache, false, [], [], 0, 0⟩).tr
      = applyWrites lsOK enc ⟨cache, [], false⟩ ws1 := htr1
  refine ⟨by rw [hgen]; rfl, ?_, ?_, ?_, ?_, ?_⟩
  · rw [hwrites]
    exact hch1
  · rw [hwrites, hgen]
    exact congrArg CacheTr.cache htr
  · rw [hwrites, hgen]
    exact congrArg CacheTr.capTrace htr
  · rw [hwrites, hgen]
    exact congrArg CacheTr.resized htr
  · intro hk
    obtain ⟨_, hsizes⟩ := genLoop_count k lsOK enc iter.mhs
      ⟨[], none, cache, false, [], [], 0, 0⟩ (by simpa using hk)
    have hws1 : (genLoop k lsOK enc iter.mhs
        ⟨[], none, cache, false, [], [], 0, 0⟩).writes = ws1 := by
      rw [hw1]
      rfl
    rw [hwrites, ← hws1, hsizes]
    simp

theorem ceil_div_spec (k n : Nat) (hk : 0 < k) :
    (n + k - 1) / k = n / k + (if n % k = 0 then 0 else 1) := by
  rcases Nat.eq_zero_or_pos n with rfl | hn
  · have h1 : 0 + k - 1 = k - 1 := by omega
    rw [h1, Nat.div_eq_of_lt (by omega), Nat.zero_div]
    simp
  · have h1 : n + k - 1 = (n - 1) + k := by omega
    rw [h1, Nat.add_div_right _ hk]
    have h2 : n = (n - 1) + 1 := by omega
    have h3 : n / k = (n - 1) / k + if k ∣ ((n - 1) + 1) then 1 else 0 := by
      conv_lhs => rw [h2]
      exact Nat.succ_div _ _
    rw [← h2] at h3
    by_cases hm : n % k = 0
    · rw [if_pos (Nat.dvd_of_mod_eq_zero hm)] at h3
      rw [if_pos hm]
      omega
    · have hdvd : ¬ k ∣ n := fun hd => hm (Nat.mod_eq_zero_of_dvd hd)
      rw [if_neg hdvd] at h3
      rw [if_neg hm]
      omega

/-- Committing five pairwise-distinct chunks into an empty cache of
capacity 2 doubles the capacity to 4 before the third commit and to 8
before the fifth, ending with five entries. -/
theorem applyWrites_five (enc : Chunk → Bytes) (c1 c2 c3 c4 c5 : Chunk)
    (h12 : c1 ≠ c2) (h13 : c1 ≠ c3) (h14 : c1 ≠ c4) (h15 : c1 ≠ c5)
    (h23 : c2 ≠ c3) (h24 : c2 ≠ c4) (h25 : c2 ≠ c5)
    (h34 : c3 ≠ c4) (h35 : c3 ≠ c5) (h45 : c4 ≠ c5) :
    applyWrites true enc ⟨⟨[], 2⟩, [], false⟩ [c1, c2, c3, c4, c5]
      = ⟨⟨[(CId.chunk c5, enc c5), (CId.chunk c4, enc c4), (CId.chunk c3, enc c3),
          (CId.chunk c2, enc c2), (CId.chunk c1, enc c1)], 8⟩, [4, 8], true⟩ := by
  have b12 : (CId.chunk c1 == CId.chunk c2) = false :=
    beq_eq_false_iff_ne.mpr (fun h => h12 (CId.chunk.inj h))
  have b13 : (CId.chunk c1 == CId.chunk c3) = false :=
    beq_eq_false_iff_ne.mpr (fun h => h13 (CId.chunk.inj h))
  have b14 : (CId.chunk c1 == CId.chunk c4) = false :=
    beq_eq_false_iff_ne.mpr (fun h => h14 (CId.chunk.inj h))
  have b15 : (CId.chunk c1 == CId.chunk c5) = false :=
    beq_eq_false_iff_ne.mpr (fun h => h15 (CId.chunk.inj h))
  have b23 : (CId.chunk c2 == CId.chunk c3) = false :=
    beq_eq_false_iff_ne.mpr (fun h => h23 (CId.chunk.inj h))
  have b24 : (CId.chunk c2 == CId.chunk c4) = false :=
    beq_eq_false_iff_ne.mpr (fun h => h24 (CId.chunk.inj h))
  have b25 : (CId.chunk c2 == CId.chunk c5) = false :=
    beq_eq_false_iff_ne.mpr (fun h => h25 (CId.chunk.inj h))
  have b34 : (CId.chunk c3 == CId.chunk c4) = false :=
    beq_eq_false_iff_ne.mpr (fun h => h34 (CId.chunk.inj h))
  have b35 : (CId.chunk c3 == CId.chunk c5) = false :=
    beq_eq_false_iff_ne.mpr (fun h => h35 (CId.chunk.inj h))
  have b45 : (CId.chunk c4 == CId.chunk c5) = false :=
    beq_eq_false_iff_ne.mpr (fun h => h45 (CId.chunk.inj h))
  simp [applyWrites, applyWrite, condResize, LRUStore.put, LRUStore.resize,
    LRUStore.len, List.foldl, List.filter, b12, b13, b14, b15, b23, b24, b25,
    b34, b35, b45]

theorem list_length_five (ws : List Chunk) (h : ws.length = 5) :
    ∃ a b c d e, ws = [a, b, c, d, e] := by
  cases ws with
  | nil => simp at h
  | cons a t1 =>
    cases t1 with
    | nil => simp at h
    | cons b t2 =>
      cases t2 with
      | nil => simp at h
      | cons c t3 =>
        cases t3 with
        | nil => simp at h
        | cons d t4 =>
          cases t4 with
          | nil => simp at h
          | cons e t5 =>
            cases t5 with
            | nil => exact ⟨a, b, c, d, e, rfl⟩
            | cons f t6 => simp at h

/-- The batch buffer, previous link and write list produced by the
generator loop do not depend on the cache state or on the result of
the `*lrustore.LRUStore` type assertion. -/
theorem genLoop_nonCache_indep (k : Nat) (enc : Chunk → Bytes) :
    ∀ (l : List Multihash) (lsA lsB : Bool) (st1 st2 : GenState),
      st1.buf = st2.buf → st1.chunkLnk = st2.chunkLnk → st1.writes = st2.writes →
      (genLoop k lsA enc l st1).buf = (genLoop k lsB enc l st2).buf ∧
      (genLoop k lsA enc l st1).chunkLnk = (genLoop k lsB enc l st2).chunkLnk ∧
      (genLoop k lsA enc l st1).writes = (genLoop k lsB enc l st2).writes := by
  intro l
  induction l with
  | nil =>
    intro lsA lsB st1 st2 hb hl hw
    exact ⟨hb, hl, hw⟩
  | cons m rest ih =>
    intro lsA lsB st1 st2 hb hl hw
    by_cases hk : k ≤ st1.buf.length + 1
    · have hk2 : k ≤ st2.buf.length + 1 := by rw [← hb]; exact hk
      have hunf1 : genLoop k lsA enc (m :: rest) st1
          = genLoop k lsA enc rest (writeStep lsA enc
              { st1 with buf := st1.buf ++ [m], totalMhCount := st1.totalMhCount + 1 }) := by
        simp only [genLoop]
        rw [if_pos (by simp [hk])]
      have hunf2 : genLoop k lsB enc (m :: rest) st2
          = genLoop k lsB enc rest (writeStep lsB enc
              { st2 with buf := st2.buf ++ [m], totalMhCount := st2.totalMhCount + 1 }) := by
        simp only [genLoop]
        rw [if_pos (by simp [hk2])]
      rw [hunf1, hunf2]
      apply ih
      · rfl
      · show some (mkChunk (st1.buf ++ [m]) st1.chunkLnk)
            = some (mkChunk (st2.buf ++ [m]) st2.chunkLnk)
        rw [hb, hl]
      · show st1.writes ++ [mkChunk (st1.buf ++ [m]) st1.chunkLnk]
            = st2.writes ++ [mkChunk (st2.buf ++ [m]) st2.chunkLnk]
        rw [hb, hl, hw]
    · have hk2 : ¬ k ≤ st2.buf.length + 1 := by rw [← hb]; exact hk
      have hunf1 : genLoop k lsA enc (m :: rest) st1
          = genLoop k lsA enc rest
              { st1 with buf := st1.buf ++ [m], totalMhCount := st1.totalMhCount + 1 } := by
        simp only [genLoop]
        rw [if_neg (by simp [hk])]
      have hunf2 : genLoop k lsB enc (m :: rest) st2
          = genLoop k lsB enc rest
              { st2 with buf := st2.buf ++ [m], totalMhCount := st2.totalMhCount + 1 } := by
        simp only [genLoop]
        rw [if_neg (by simp [hk2])]
      rw [hunf1, hunf2]
      apply ih
      · show st1.buf ++ [m] = st2.buf ++ [m]
        rw [hb]
      · exact hl
      · exact hw

/-- The write list and the returned result of `generateChunks` do not
depend on the cache state or on the `*lrustore.LRUStore` type
assertion. -/
theorem gen_writes_result_indep (k : Nat) (enc : Chunk → Bytes)
    (lsA lsB : Bool) (cacheA cacheB : LRUStore) (iter : MhIterator) :
    (generateChunks k lsA enc cacheA iter).writes
      = (generateChunks k lsB enc cacheB iter).writes ∧
    (generateChunks k lsA enc cacheA iter).result
      = (generateChunks k lsB enc cacheB iter).result := by
  obtain ⟨hbuf, hlnk, hw⟩ := genLoop_nonCache_indep k enc iter.mhs lsA lsB
    ⟨[], none, cacheA, false, [], [], 0, 0⟩ ⟨[], none, cacheB, false, [], [], 0, 0⟩
    rfl rfl rfl
  cases ht : iter.terminal with
  | some er =>
    refine ⟨?_, ?_⟩ <;> simp only [generateChunks, ht]
    · exact hw
    · rfl
  | none =>
    obtain ⟨wsA, hwA, _, hendA, _, _, _, hbEA, hbNA⟩ :=
      finishGen_spec lsA enc
        (genLoop k lsA enc iter.mhs ⟨[], none, cacheA, false, [], [], 0, 0⟩)
    obtain ⟨wsB, hwB, _, hendB, _, _, _, hbEB, hbNB⟩ :=
      finishGen_spec lsB enc
        (genLoop k lsB enc iter.mhs ⟨[], none, cacheB, false, [], [], 0, 0⟩)
    have hws : wsA = wsB := by
      by_cases hbe : (genLoop k lsA enc iter.mhs
          ⟨[], none, cacheA, false, [], [], 0, 0⟩).buf.isEmpty = true
      · rw [hbEA hbe, hbEB (by rw [← hbuf]; exact hbe)]
      · have hbe2 : (genLoop k lsA enc iter.mhs
            ⟨[], none, cacheA, false, [], [], 0, 0⟩).buf.isEmpty = false := by
          simpa using hbe
        rw [hbNA hbe2, hbNB (by rw [← hbuf]; exact hbe2), hbuf, hlnk]
    refine ⟨?_, ?_⟩ <;> simp only [generateChunks, ht]
    · show (finishGen lsA enc
          (genLoop k lsA enc iter.mhs ⟨[], none, cacheA, false, [], [], 0, 0⟩)).writes
        = (finishGen lsB enc
          (genLoop k lsB enc iter.mhs ⟨[], none, cacheB, false, [], [], 0, 0⟩)).writes
      rw [hwA, hwB, hw, hws]
    · show (Except.ok (finishGen lsA enc
            (genLoop k lsA enc iter.mhs ⟨[], none, cacheA, false, [], [], 0, 0⟩)).chunkLnk
          : Except Err (Option Chunk))
        = Except.ok (finishGen lsB enc
            (genLoop k lsB enc iter.mhs ⟨[], none, cacheB, false, [], [], 0, 0⟩)).chunkLnk
      rw [hendA, hendB, hlnk, hws]

/-! ### The claims -/

/-- C5 counterexample: a node whose top-level "Signature" field is
present but explicitly null is classified as an advertisement by the
code (`LookupByString` returns the non-nil null node), while the
claim's "present and non-null" reading demands false. -/
theorem c5_counterexample :
    isAdvertisement (Node.map [("Signature", Node.null)]) = true ∧
    specIsAdvertisement (Node.map [("Signature", Node.null)]) = false := by
  constructor
  · simp [isAdvertisement, Node.lookupByString, List.find?]
  · simp [specIsAdvertisement, Node.lookupByString, List.find?]

/-- C5 (amended): `isAdvertisement` returns true iff the decoded node
is a map carrying a top-level field named "Signature" — the field's
value may be null; it returns false for every node lacking that field
and for every non-map node. -/
theorem c5_signature_presence (n : Node) :
    isAdvertisement n = true
      ↔ ∃ fs, n = Node.map fs ∧ "Signature" ∈ fs.map Prod.fst := by
  cases n with
  | null => simp [isAdvertisement, Node.lookupByString]
  | bool b => simp [isAdvertisement, Node.lookupByString]
  | int i => simp [isAdvertisement, Node.lookupByString]
  | str s => simp [isAdvertisement, Node.lookupByString]
  | bytes bs => simp [isAdvertisement, Node.lookupByString]
  | list xs => simp [isAdvertisement, Node.lookupByString]
  | map fields =>
    simp only [isAdvertisement, Node.lookupByString, Option.isSome_map']
    rw [List.find?_isSome]
    constructor
    · rintro ⟨f, hf, hfs⟩
      exact ⟨fields, rfl, List.mem_map.mpr ⟨f, hf, beq_iff_eq.mp hfs⟩⟩
    · rintro ⟨fs, heq, hmem⟩
      have hfs : fields = fs := by injection heq
      subst hfs
      obtain ⟨f, hf, hfst⟩ := List.mem_map.mp hmem
      exact ⟨f, hf, beq_iff_eq.mpr hfst⟩

/-- C1 counterexample: for an identifier whose persisted bytes decode
to a non-advertisement node, the read does not return the stored bytes;
with no registered callback it fails with `ErrNoCallback`, showing that
it proceeded to the callback/cache/generation path. -/
theorem c1_counterexample :
    read engNonAd (CId.other 0) = .error .noCallback ∧
    read engNonAd (CId.other 0) ≠ .ok [7] := by
  have had : isAdvertisement (Node.map [("Entries", Node.null)]) = false := by
    simp [isAdvertisement, Node.lookupByString, List.find?]
  have h : read engNonAd (CId.other 0) = .error .noCallback := by
    simp [read, engNonAd, readIngest, had]
  refine ⟨h, ?_⟩
  rw [h]
  intro hh
  exact Except.noConfusion hh

/-- C1 (amended): when the identifier is found in the persistent store
but the classifier reports it is not an advertisement, the read does
not return the stored bytes; it falls through to the
callback/cache/generation path and behaves exactly like the
ingestion-data path. -/
theorem c1_read_falls_through (e : Engine) (id : CId) (v : Bytes) (n : Node)
    (hds : e.ds id = .ok v) (hv : v.length ≠ 0) (hdec : e.decode v = some n)
    (had : isAdvertisement n = false) :
    read e id = readIngest e id := by
  simp only [read, hds]
  simp [hv, hdec, had]

/-- C1 witness. -/
theorem c1_read_falls_through_witness :
    read engNonAd (CId.other 5) = readIngest engNonAd (CId.other 5) :=
  c1_read_falls_through engNonAd (CId.other 5) [7]
    (Node.map [("Entries", Node.null)]) rfl (by decide) rfl (by decide)

/-- C7: resolving an identifier absent from the persistent store with
no registered callback fails with `ErrNoCallback`, whatever the cache
holds and whatever the CID-to-contextID map would answer (so the check
precedes any cache lookup or generation). -/
theorem c7_no_callback (e : Engine) (id : CId)
    (hds : e.ds id = .notFound) (hcb : e.cb = none) :
    ∀ (c2 : LRUStore) (km : CId → Except Nat ContextID),
      read { e with cache := c2, keyMap := km } id = .error .noCallback := by
  intro c2 km
  simp [read, hds, readIngest, hcb]

/-- C7 witness. -/
theorem c7_no_callback_witness :
    read { engNoCb with cache := ⟨[], 2⟩, keyMap := fun _ => .error 0 } (CId.other 1)
      = .error .noCallback :=
  c7_no_callback engNoCb (CId.other 1) rfl rfl ⟨[], 2⟩ (fun _ => .error 0)

/-- C6: on the cache-miss path, when generation completes without error
but the identifier is still absent from the cache on the re-read, the
read fails with `NotFound`. -/
theorem c6_notfound_after_generation (e : Engine) (id : CId)
    (f : ContextID → Except Nat MhIterator) (ctx : ContextID)
    (iter : MhIterator) (l : Option Chunk)
    (hds : e.ds id = .notFound) (hcb : e.cb = some f)
    (hmiss : getCacheEntry e.cache id = none)
    (hkm : e.keyMap id = .ok ctx) (hf : f ctx = .ok iter)
    (hres : (generateChunks e.linkedChunkSize e.cacheIsLRU e.enc e.cache iter).result
      = .ok l)
    (hmiss2 : getCacheEntry
        (generateChunks e.linkedChunkSize e.cacheIsLRU e.enc e.cache iter).cache id
      = none) :
    read e id = .error .notFound := by
  simp [read, hds, readIngest, hcb, hmiss, hkm, hf, hres, finishRead, hmiss2]

/-- C6 witness. -/
theorem c6_notfound_after_generation_witness :
    read engMiss (CId.other 0) = .error .notFound :=
  c6_notfound_after_generation engMiss (CId.other 0)
    (fun _ => .ok ⟨[], none⟩) [] ⟨[], none⟩ none rfl rfl rfl rfl rfl rfl rfl

/-- C9: a zero-length value stored in the persistent store is treated
by the read path exactly like an absent key (resolution falls through
to the callback/cache/generation path), and a zero-length value
obtained from the cache on the post-generation re-read yields
`NotFound` rather than empty bytes. -/
theorem c9_empty_value_handling (e : Engine) (id : CId) :
    (e.ds id = .ok [] →
      read e id
        = read { e with ds := fun x => if x = id then .notFound else e.ds x } id) ∧
    (∀ (f : ContextID → Except Nat MhIterator) (ctx : ContextID)
        (iter : MhIterator) (l : Option Chunk),
      e.ds id = .notFound → e.cb = some f →
      getCacheEntry e.cache id = none → e.keyMap id = .ok ctx → f ctx = .ok iter →
      (generateChunks e.linkedChunkSize e.cacheIsLRU e.enc e.cache iter).result
        = .ok l →
      getCacheEntry
          (generateChunks e.linkedChunkSize e.cacheIsLRU e.enc e.cache iter).cache id
        = some [] →
      read e id = .error .notFound) := by
  constructor
  · intro hds
    have hds2 : ({ e with ds := fun x => if x = id then .notFound else e.ds x }
        : Engine).ds id = .notFound := by
      simp
    have h1 : read e id = readIngest e id := by
      simp [read, hds]
    have h2 : read { e with ds := fun x => if x = id then .notFound else e.ds x } id
        = readIngest { e with ds := fun x => if x = id then .notFound else e.ds x } id := by
      simp [read, hds2]
    rw [h1, h2]
    rfl
  · intro f ctx iter l hds hcb hmiss hkm hf hres hsome
    simp [read, hds, readIngest, hcb, hmiss, hkm, hf, hres, finishRead, hsome]

/-- C9 witness. -/
theorem c9_empty_value_handling_witness :
    read engEmptyVal (CId.other 3)
      = read { engEmptyVal with
          ds := fun x => if x = CId.other 3 then .notFound else engEmptyVal.ds x }
          (CId.other 3) ∧
    read engEmptyEnc (CId.chunk (.first [5])) = .error .notFound :=
  ⟨(c9_empty_value_handling engEmptyVal (CId.other 3)).1 rfl,
   (c9_empty_value_handling engEmptyEnc (CId.chunk (.first [5]))).2
     (fun _ => .ok ⟨[5], none⟩) [] ⟨[5], none⟩ (some (.first [5]))
     rfl rfl rfl rfl rfl rfl rfl⟩

/-- C2: for every multihash sequence of length `n > 0` and every
`chunkSize = k > 0`, the generator writes exactly `⌈n/k⌉` chunks, the
first-written chunk has no previous link, each later chunk links to the
chunk written immediately before it, and the returned head link is the
last chunk written. -/
theorem c2_chunk_count_and_links (k : Nat) (iter : MhIterator) (cache : LRUStore)
    (lsOK : Bool) (enc : Chunk → Bytes) (hk : 0 < k) (ht : iter.terminal = none)
    (hn : 0 < iter.mhs.length) :
    (generateChunks k lsOK enc cache iter).writes.length
        = (iter.mhs.length + k - 1) / k ∧
    (∀ h0 : 0 < (generateChunks k lsOK enc cache iter).writes.length,
      ((generateChunks k lsOK enc cache iter).writes.get ⟨0, h0⟩).prevLink = none) ∧
    (∀ i (hi : i + 1 < (generateChunks k lsOK enc cache iter).writes.length),
      ((generateChunks k lsOK enc cache iter).writes.get ⟨i + 1, hi⟩).prevLink
        = some ((generateChunks k lsOK enc cache iter).writes.get
            ⟨i, Nat.lt_of_succ_lt hi⟩)) ∧
    (generateChunks k lsOK enc cache iter).result
      = .ok (generateChunks k lsOK enc cache iter).writes.getLast? := by
  obtain ⟨hch, hres, _, _, _⟩ := gen_none_spec k lsOK enc cache iter ht
  have hsizes := gen_none_sizes k lsOK enc cache iter hk ht
  have hlen : (generateChunks k lsOK enc cache iter).writes.length
      = iter.mhs.length / k + (if iter.mhs.length % k = 0 then 0 else 1) := by
    have hll := congrArg List.length hsizes
    simpa [List.length_append, List.length_map, List.length_replicate, apply_ite]
      using hll
  have hne : (generateChunks k lsOK enc cache iter).writes ≠ [] := by
    intro hemp
    rw [hemp] at hlen
    simp only [List.length_nil] at hlen
    by_cases hm : iter.mhs.length % k = 0
    · rw [if_pos hm] at hlen
      have hdiv : iter.mhs.length / k = 0 := by simpa using hlen.symm
      have hd := Nat.div_add_mod iter.mhs.length k
      rw [hdiv, hm] at hd
      simp at hd
      omega
    · rw [if_neg hm] at hlen
      exact Nat.succ_ne_zero _ hlen.symm
  refine ⟨?_, ?_, ?_, ?_⟩
  · rw [hlen, ceil_div_spec k iter.mhs.length hk]
  · intro h0
    exact isChain_get_zero none _ hch h0
  · intro i hi
    exact isChain_get_succ none _ hch i hi
  · rw [hres, endLink_eq_getLast none _ hne]

/-- C2 witness. -/
theorem c2_chunk_count_and_links_witness :
    (generateChunks 2 true encW ⟨[], 2⟩ ⟨[10, 20, 30], none⟩).writes.length = 2 ∧
    (generateChunks 2 true encW ⟨[], 2⟩ ⟨[10, 20, 30], none⟩).result
      = .ok (generateChunks 2 true encW ⟨[], 2⟩ ⟨[10, 20, 30], none⟩).writes.getLast? := by
  have h := c2_chunk_count_and_links 2 ⟨[10, 20, 30], none⟩ ⟨[], 2⟩ true encW
    (by decide) rfl (by decide)
  exact ⟨h.1, h.2.2.2⟩

/-- C3 counterexample: for `chunkSize = 2` and a sequence of 5
multihashes the chunk sizes in write order are `[2, 2, 1]` — the
remainder chunk is written last, not first — refuting the claimed
write-order sizes `[1, 2, 2]` and the claim that the first-written
chunk holds `n mod k` entries. -/
theorem c3_counterexample :
    (generateChunks 2 true encW ⟨[], 2⟩ ⟨[0, 1, 2, 3, 4], none⟩).writes.map Chunk.size
        = [2, 2, 1] ∧
    (generateChunks 2 true encW ⟨[], 2⟩ ⟨[0, 1, 2, 3, 4], none⟩).writes.map Chunk.size
        ≠ [1, 2, 2] := by
  constructor
  · rfl
  · intro h
    rw [show (generateChunks 2 true encW ⟨[], 2⟩
        ⟨[0, 1, 2, 3, 4], none⟩).writes.map Chunk.size = [2, 2, 1] from rfl] at h
    simp at h

/-- C3 (amended): for chunkSize `k` and `n` multihashes with
`n mod k ≠ 0`, the LAST-written chunk (the head) contains `n mod k`
entries and every earlier chunk contains exactly `k`; the head link is
the last chunk written and the writes form a previous-link chain
terminating in none. -/
theorem c3_last_chunk_holds_remainder (k : Nat) (iter : MhIterator)
    (cache : LRUStore) (lsOK : Bool) (enc : Chunk → Bytes)
    (hk : 0 < k) (ht : iter.terminal = none) (hm : iter.mhs.length % k ≠ 0) :
    (generateChunks k lsOK enc cache iter).writes.map Chunk.size
        = List.replicate (iter.mhs.length / k) k ++ [iter.mhs.length % k] ∧
    isChain none (generateChunks k lsOK enc cache iter).writes ∧
    (generateChunks k lsOK enc cache iter).result
      = .ok (generateChunks k lsOK enc cache iter).writes.getLast? := by
  obtain ⟨hch, hres, _, _, _⟩ := gen_none_spec k lsOK enc cache iter ht
  have hsizes := gen_none_sizes k lsOK enc cache iter hk ht
  rw [if_neg hm] at hsizes
  have hne : (generateChunks k lsOK enc cache iter).writes ≠ [] := by
    intro hemp
    rw [hemp] at hsizes
    simp at hsizes
  exact ⟨hsizes, hch, by rw [hres, endLink_eq_getLast none _ hne]⟩

/-- C3 witness. -/
theorem c3_last_chunk_holds_remainder_witness :
    (generateChunks 2 true encW ⟨[], 2⟩ ⟨[7, 8, 9, 10, 11], none⟩).writes.map Chunk.size
        = [2, 2, 1] ∧
    (generateChunks 2 true encW ⟨[], 2⟩ ⟨[7, 8, 9, 10, 11], none⟩).result
      = .ok (generateChunks 2 true encW ⟨[], 2⟩
          ⟨[7, 8, 9, 10, 11], none⟩).writes.getLast? := by
  have h := c3_last_chunk_holds_remainder 2 ⟨[7, 8, 9, 10, 11], none⟩ ⟨[], 2⟩ true encW
    (by decide) rfl (by decide)
  exact ⟨h.1, h.2.2⟩

/-- C8: an iterator error other than end-of-sequence aborts generation
immediately: the error is surfaced to the caller as the result, no head
link is returned, only the `⌊n/k⌋` full chunks accumulated before the
failure were committed, and each of them is still stored in the final
cache. -/
theorem c8_iterator_error_aborts (k : Nat) (lsOK : Bool) (enc : Chunk → Bytes)
    (cache : LRUStore) (iter : MhIterator) (er : Nat)
    (hk : 0 < k) (ht : iter.terminal = some er) :
    (generateChunks k lsOK enc cache iter).result = .error (.iterErr er) ∧
    (generateChunks k lsOK enc cache iter).writes.length = iter.mhs.length / k ∧
    ∀ c ∈ (generateChunks k lsOK enc cache iter).writes,
      (generateChunks k lsOK enc cache iter).cache.lookup (CId.chunk c)
        = some (enc c) := by
  obtain ⟨hres, hch, hcache, _, _, hsz⟩ := gen_err_spec k lsOK enc cache iter er ht
  refine ⟨hres, ?_, ?_⟩
  · have hll := congrArg List.length (hsz hk)
    simpa using hll
  · intro c hc
    rw [hcache]
    exact applyWrites_lookup_mem lsOK enc _ _ c (Or.inl hc)

/-- C8 witness. -/
theorem c8_iterator_error_aborts_witness :
    (generateChunks 2 true encW ⟨[], 2⟩ ⟨[1, 2, 3], some 42⟩).result
        = .error (.iterErr 42) ∧
    (generateChunks 2 true encW ⟨[], 2⟩ ⟨[1, 2, 3], some 42⟩).writes.length = 1 := by
  have h := c8_iterator_error_aborts 2 true encW ⟨[], 2⟩ ⟨[1, 2, 3], some 42⟩ 42
    (by decide) rfl
  exact ⟨h.1, h.2.1⟩

/-- C10: the capacity management (doubling and the final shrink) runs
only when the engine cache is concretely a `*lrustore.LRUStore`; with
any other cache no `Resize` is ever performed and the capacity is left
untouched, while the chunk writes and the returned result are
identical. -/
theorem c10_resize_only_for_lrustore (k : Nat) (enc : Chunk → Bytes)
    (cache : LRUStore) (iter : MhIterator) :
    (generateChunks k false enc cache iter).capTrace = [] ∧
    (generateChunks k false enc cache iter).resized = false ∧
    (generateChunks k false enc cache iter).cache.cap = cache.cap ∧
    (generateChunks k false enc cache iter).writes
      = (generateChunks k true enc cache iter).writes ∧
    (generateChunks k false enc cache iter).result
      = (generateChunks k true enc cache iter).result := by
  obtain ⟨hw, hres⟩ := gen_writes_result_indep k enc false true cache cache iter
  have hframe : (generateChunks k false enc cache iter).capTrace = [] ∧
      (generateChunks k false enc cache iter).resized = false ∧
      (generateChunks k false enc cache iter).cache.cap = cache.cap := by
    cases ht : iter.terminal with
    | some er =>
      obtain ⟨_, _, hcache, hcap, hresz, _⟩ := gen_err_spec k false enc cache iter er ht
      obtain ⟨hfr1, hfr2, hfr3⟩ := applyWrites_false_frame enc
        (generateChunks k false enc cache iter).writes ⟨cache, [], false⟩
      refine ⟨?_, ?_, ?_⟩
      · rw [hcap, hfr1]
      · rw [hresz, hfr2]
      · rw [hcache]
        exact hfr3
    | none =>
      obtain ⟨_, _, hreq, _, hcF⟩ := gen_none_spec k false enc cache iter ht
      obtain ⟨hfr1, hfr2, hfr3⟩ := applyWrites_false_frame enc
        (generateChunks k false enc cache iter).writes ⟨cache, [], false⟩
      have hfalse : (applyWrites false enc ⟨cache, [], false⟩
          (generateChunks k false enc cache iter).writes).resized = false := hfr2
      obtain ⟨hc, hct⟩ := hcF hfalse
      refine ⟨?_, ?_, ?_⟩
      · rw [hct, hfr1]
      · rw [hreq, hfalse]
      · rw [hc]
        exact hfr3
  exact ⟨hframe.1, hframe.2.1, hframe.2.2, hw, hres⟩

/-- C4: starting from an empty LRU cache of capacity 2, a completed
generation run that writes 5 chunks makes the capacity trace read
4, 8 (doubling exactly when `Len = Cap` before a chunk write) followed
by the shrink to 5, leaving `Cap = Len = 5`; and in general, whenever
any resize occurred during a completed run, the final capacity equals
the cache's current length. -/
theorem c4_cache_growth_shrink :
    (∀ (k : Nat) (enc : Chunk → Bytes) (iter : MhIterator),
      iter.terminal = none →
      (generateChunks k true enc ⟨[], 2⟩ iter).writes.length = 5 →
      (generateChunks k true enc ⟨[], 2⟩ iter).capTrace = [4, 8, 5] ∧
      (generateChunks k true enc ⟨[], 2⟩ iter).cache.cap = 5 ∧
      (generateChunks k true enc ⟨[], 2⟩ iter).cache.len = 5) ∧
    (∀ (k : Nat) (lsOK : Bool) (enc : Chunk → Bytes) (cache : LRUStore)
        (iter : MhIterator),
      iter.terminal = none →
      (generateChunks k lsOK enc cache iter).resized = true →
      (generateChunks k lsOK enc cache iter).cache.cap
        = (generateChunks k lsOK enc cache iter).cache.len) := by
  constructor
  · intro k enc iter ht h5
    obtain ⟨hch, _, hresz, hcT, _⟩ := gen_none_spec k true enc ⟨[], 2⟩ iter ht
    obtain ⟨a, b, c, d, e, hws⟩ := list_length_five _ h5
    have hpw := isChain_pairwise_ne none _ hch
    rw [hws] at hpw
    simp only [List.pairwise_cons, List.mem_cons, List.mem_singleton,
      List.not_mem_nil] at hpw
    have h12 : a ≠ b := by
      have := hpw.1 b
      tauto
    have h13 : a ≠ c := by
      have := hpw.1 c
      tauto
    have h14 : a ≠ d := by
      have := hpw.1 d
      tauto
    have h15 : a ≠ e := by
      have := hpw.1 e
      tauto
    have h23 : b ≠ c := by
      have := hpw.2.1 c
      tauto
    have h24 : b ≠ d := by
      have := hpw.2.1 d
      tauto
    have h25 : b ≠ e := by
      have := hpw.2.1 e
      tauto
    have h34 : c ≠ d := by
      have := hpw.2.2.1 d
      tauto
    have h35 : c ≠ e := by
      have := hpw.2.2.1 e
      tauto
    have h45 : d ≠ e := by
      have := hpw.2.2.2.1 e
      tauto
    have hfive := applyWrites_five enc a b c d e
      h12 h13 h14 h15 h23 h24 h25 h34 h35 h45
    rw [hws, hfive] at hcT
    obtain ⟨hcache, hcap⟩ := hcT rfl
    refine ⟨?_, ?_, ?_⟩
    · rw [hcap]
      rfl
    · rw [hcache]
      rfl
    · rw [hcache]
      rfl
  · intro k lsOK enc cache iter ht hresz
    obtain ⟨_, _, hreq, hcT, _⟩ := gen_none_spec k lsOK enc cache iter ht
    have hpre : (applyWrites lsOK enc ⟨cache, [], false⟩
        (generateChunks k lsOK enc cache iter).writes).resized = true := by
      rw [← hreq]
      exact hresz
    obtain ⟨hcache, _⟩ := hcT hpre
    rw [hcache]
    exact LRUStore.resize_len_cap _

/-- C4 witness. -/
theorem c4_cache_growth_shrink_witness :
    (generateChunks 1 true encW ⟨[], 2⟩ ⟨[0, 1, 2, 3, 4], none⟩).capTrace = [4, 8, 5] ∧
    (generateChunks 1 true encW ⟨[], 2⟩ ⟨[0, 1, 2, 3, 4], none⟩).cache.cap
      = (generateChunks 1 true encW ⟨[], 2⟩ ⟨[0, 1, 2, 3, 4], none⟩).cache.len := by
  refine ⟨?_, ?_⟩
  · exact (c4_cache_growth_shrink.1 1 encW ⟨[0, 1, 2, 3, 4], none⟩ rfl rfl).1
  · exact c4_cache_growth_shrink.2 1 true encW ⟨[], 2⟩ ⟨[0, 1, 2, 3, 4], none⟩ rfl rfl

end IndexProvider
